import Mathlib

/-!
Verification development for `src/C/regdom.c` (registered-domain lookup).

The C code is shallowly embedded as follows:

* `struct tldnode` becomes the structure `tldnode`; the `attr` field of the C
  code is either `NULL` or the address of the static string `THIS` (`"!"`),
  so it is modelled as a `Bool` (`true` iff `attr == THIS`); `num_children`
  always equals the length of `subnodes`, so only the list is kept.
* Hostnames and the encoded rule text are `List Char`; C pointers into the
  hostname become `Nat` offsets.  Reading the terminating `'\0'` of a C
  string is modelled by `cAt`, which yields `Char.ofNat 0` out of range.
* `size_t m = seg_end - seg_start` in `findTldNode` is a 64-bit unsigned
  difference; it is modelled as `((seg_end - seg_start : Int) % 2^64).toNat`
  so that the inverted windows produced for hostnames with a trailing dot
  wrap around exactly as in the C code.
* The unbounded `for(;;)` loop of `getRegisteredDomainDropI` is modelled
  with explicit fuel (`rdLoop`); fuel exhaustion is the distinguished result
  `RdRes.fuelOut` and never occurs on inputs reachable from the entry point.
  The `abort()` branch is the distinguished result `RdRes.abort`.
* `readTldString` is modelled with explicit fuel; paths on which the C code
  would leave `node->dom` as a NULL pointer (no delimiter before the end of
  the input) or read out of bounds return `none`; they are unreachable for
  well-formed encodings.
-/

/-- One node of the suffix tree (`struct tldnode` in `regdom.c`).
`dom` is the stored label, `attr` is `true` iff the C field equals `THIS`
(the exception marker), `subnodes` the children (`num_children` is its
length). -/
structure tldnode where
  dom : List Char
  attr : Bool
  subnodes : List tldnode

/-- Result of `getRegisteredDomainDropI`: either the C `abort()` branch, the
fuel-exhaustion artifact of the embedding (never reachable from the entry
point), the NULL return (`noMatch`), or a pointer into the hostname,
modelled as the offset `k` of the returned suffix. -/
inductive RdRes where
  | abort
  | fuelOut
  | noMatch
  | found (k : Nat)
  deriving DecidableEq

/-- Reading `hostname[p]`: the character at offset `p`, or the terminating
NUL (`Char.ofNat 0`) when `p` is past the end. -/
def cAt (h : List Char) (p : Nat) : Char :=
  (h.get? p).getD (Char.ofNat 0)

/-- Take `n` characters of `h` starting at offset `a` (the bytes
`memcmp`/`memcpy` look at). -/
def sliceL (h : List Char) (a n : Nat) : List Char :=
  (h.drop a).take n

/-- The value of `size_t m = seg_end - seg_start`: 64-bit unsigned wraparound
of the pointer difference. -/
def segLen (seg_start seg_end : Nat) : Nat :=
  (((seg_end : Int) - (seg_start : Int)) % (2 ^ 64)).toNat

/-- The backward scan of `getRegisteredDomainDropI`:
`while (seg_start > head && *seg_start != '.') seg_start--;
 if (*seg_start == '.') seg_start++;`
starting from offset `p`. -/
def scanBack (h : List Char) : Nat → Nat
  | 0 => if cAt h 0 = '.' then 1 else 0
  | p + 1 => if cAt h (p + 1) = '.' then p + 2 else scanBack h p

/-- Exact-match test of `findTldNode` for one child: `m == n &&
!memcmp(child->dom, seg_start, n)`. -/
def exactMatch (h : List Char) (seg_start seg_end : Nat) (c : tldnode) : Prop :=
  segLen seg_start seg_end = c.dom.length ∧ sliceL h seg_start c.dom.length = c.dom

instance (h : List Char) (ss se : Nat) (c : tldnode) : Decidable (exactMatch h ss se c) :=
  inferInstanceAs (Decidable (_ ∧ _))

/-- The linear child search of `findTldNode`, with `acc` playing the role of
the `allNode` variable: a child labelled `"*"` is recorded (only the first
one) and skipped; otherwise an exact byte-for-byte match returns
immediately; if the scan ends, the recorded wildcard (if any) is returned. -/
def findTldGo (h : List Char) (seg_start seg_end : Nat) :
    List tldnode → Option tldnode → Option tldnode
  | [], acc => acc
  | c :: rest, acc =>
    if acc.isNone ∧ c.dom = ['*'] then findTldGo h seg_start seg_end rest (some c)
    else if exactMatch h seg_start seg_end c then some c
    else findTldGo h seg_start seg_end rest acc

/-- `findTldNode(parent, seg_start, seg_end)` from `regdom.c`. -/
def findTldNode (parent : tldnode) (h : List Char) (seg_start seg_end : Nat) :
    Option tldnode :=
  findTldGo h seg_start seg_end parent.subnodes none

/-- The break condition `subtree->num_children == 1 &&
subtree->subnodes[0]->attr == THIS`. -/
def exceptionTerminal (n : tldnode) : Bool :=
  match n.subnodes with
  | [c] => c.attr
  | _ => false

/-- The code after the main loop of `getRegisteredDomainDropI`: the
two-label guarantee.  `p` is the final `seg_start`.  `strchr(seg_start, '.')`
is a search over the suffix `h.drop p`; on failure the window is either
rejected (`seg_start == head || drop_unknown`) or extended one label to the
left (`seg_start -= 2` followed by the same backward scan). -/
def finishPhase (h : List Char) (drop_unknown : Bool) (p : Nat) : RdRes :=
  if '.' ∈ h.drop p then .found p
  else if p = 0 ∨ drop_unknown = true then .noMatch
  else .found (scanBack h (p - 2))

/-- The `for(;;)` loop of `getRegisteredDomainDropI`, with explicit fuel.
Each iteration scans back to the start of the current label, searches the
children of the cursor, and either breaks into `finishPhase`, rejects a
fully consumed name, aborts (guard `seg_start[-1] != '.'`), or descends. -/
def rdLoop (h : List Char) (drop_unknown : Bool) :
    Nat → tldnode → Nat → Nat → RdRes
  | 0, _, _, _ => .fuelOut
  | fuel + 1, tree, seg_start, seg_end =>
    let s := scanBack h seg_start
    match findTldNode tree h s seg_end with
    | none => finishPhase h drop_unknown s
    | some subtree =>
      if exceptionTerminal subtree = true then finishPhase h drop_unknown s
      else if s = 0 then .noMatch
      else if cAt h (s - 1) = '.' then rdLoop h drop_unknown fuel subtree (s - 2) (s - 1)
      else .abort

/-- `getRegisteredDomainDropI(hostname, tree, drop_unknown)`.  Rejects an
empty hostname or one starting with `'.'`, trims a single trailing dot from
`seg_end`, and runs the loop starting with `seg_start = seg_end`. -/
def getRegisteredDomainDropI (h : List Char) (tree : tldnode) (drop_unknown : Bool) : RdRes :=
  if cAt h 0 = '.' ∨ cAt h 0 = Char.ofNat 0 then .noMatch
  else
    let seg_end := if cAt h (h.length - 1) = '.' then h.length - 1 else h.length
    rdLoop h drop_unknown (h.length + 2) tree seg_end seg_end

/-- Public wrapper `getRegisteredDomainDrop` (a cast in the C code). -/
def getRegisteredDomainDrop (h : List Char) (tree : tldnode) (drop_unknown : Bool) : RdRes :=
  getRegisteredDomainDropI h tree drop_unknown

/-- Public wrapper `getRegisteredDomain`: drop flag fixed to 0. -/
def getRegisteredDomain (h : List Char) (tree : tldnode) : RdRes :=
  getRegisteredDomainDropI h tree false

/-- The substring actually returned: the C function returns the pointer
`seg_start` into `hostname`, i.e. the suffix of the hostname from that
offset. -/
def regDomainStr (h : List Char) (tree : tldnode) (drop_unknown : Bool) :
    Option (List Char) :=
  match getRegisteredDomainDropI h tree drop_unknown with
  | .found k => some (h.drop k)
  | _ => none

/-- Delimiter test of the decoder state machine: `c == ',' || c == ')' ||
c == '('`. -/
def isDelim (c : Char) : Bool :=
  c = ',' || c = ')' || c = '('

/-- Bounded scan of the state-0 loop of `readTldString`: starting at `pos`,
find the first delimiter position.  The countdown argument is
`h.length - pos`; when the scan falls off the end of the input the C code
would return a node whose `dom` is still NULL, which the embedding treats
as failure (`none` at the caller). -/
def findDelimGo (h : List Char) : Nat → Nat → Option Nat
  | 0, _ => none
  | k + 1, pos => if isDelim (cAt h pos) = true then some pos else findDelimGo h k (pos + 1)

/-- First delimiter position at or after `pos`. -/
def findDelim (h : List Char) (pos : Nat) : Option Nat :=
  findDelimGo h (h.length - pos) pos

/-- Bounded scan of the state-1 loop of `readTldString`: find the first
`':'` position. -/
def findColonGo (h : List Char) : Nat → Nat → Option Nat
  | 0, _ => none
  | k + 1, pos => if cAt h pos = ':' then some pos else findColonGo h k (pos + 1)

/-- First `':'` position at or after `pos`. -/
def findColon (h : List Char) (pos : Nat) : Option Nat :=
  findColonGo h (h.length - pos) pos

/-- Whether the label run `[a, b)` contains the exception marker `'!'`
(state 0 sets `node->attr = THIS` on every `'!'` it scans over). -/
def hasBang (h : List Char) (a b : Nat) : Bool :=
  (sliceL h a (b - a)).any (fun c => c = '!')

/-- Digit-accumulating core of `atoi` as applied by `readTldString` to the
child-count buffer (the buffers produced by well-formed encodings are plain
decimal digit runs, so sign/whitespace/overflow handling is irrelevant). -/
def atoiGo : Nat → List Char → Nat
  | acc, [] => acc
  | acc, c :: cs => if c.isDigit then atoiGo (acc * 10 + (c.toNat - 48)) cs else acc

/-- `atoi` on a digit run. -/
def atoiNat (l : List Char) : Nat :=
  atoiGo 0 l

mutual

/-- `readTldString(node, s, len, pos)` from `regdom.c`, with explicit fuel:
decode one node starting at position `start`, returning the node together
with the position the C function returns (the delimiter that closed the
node, or one past the `')'` of its child block).  Paths on which the C code
would leave `dom` NULL return `none`. -/
def readTldString (s : List Char) : Nat → Nat → Option (tldnode × Nat)
  | 0, _ => none
  | fuel + 1, start =>
    match findDelim s start with
    | none => none
    | some q =>
      let attr := hasBang s start q
      let lenc := if attr = true then q - start - 1 else q - start
      let dom := sliceL s start lenc
      if cAt s q = '(' then
        match findColon s (q + 1) with
        | none => none
        | some r =>
          let n := atoiNat (sliceL s (q + 1) (r - q - 1))
          match readTldChildren s fuel n r with
          | none => none
          | some (cs, p) => some (⟨dom, attr, cs⟩, p + 1)
      else some (⟨dom, attr, []⟩, q)

/-- The child-decoding loop of `readTldString`: decode `n` children, each
starting one position past the preceding delimiter (`pos` is the position
of that delimiter: the `':'` before the first child, the position returned
by the previous child otherwise).  Returns the children and the position
returned by the last child. -/
def readTldChildren (s : List Char) : Nat → Nat → Nat → Option (List tldnode × Nat)
  | _, 0, pos => some ([], pos)
  | 0, _ + 1, _ => none
  | fuel + 1, n + 1, pos =>
    match readTldString s fuel (pos + 1) with
    | none => none
    | some (c, p) =>
      match readTldChildren s fuel n p with
      | none => none
      | some (cs, e) => some (c :: cs, e)

end

/-- `loadTldTree` specialised to an arbitrary encoded string: decode a root
node from position 0. -/
def loadTldTree (s : List Char) : Option tldnode :=
  (readTldString s (s.length + 1) 0).map Prod.fst

/-- The relation "these children were decoded one after another": the first
child starts one position past `pos` (the `':'` of the child block), each
later child one position past the position returned by its predecessor, and
`r` is the position returned by the last child. -/
inductive ChildChain (s : List Char) : Nat → List tldnode → Nat → Prop where
  | nil (pos : Nat) : ChildChain s pos [] pos
  | cons (pos e r : Nat) (c : tldnode) (cs : List tldnode) (fuel : Nat)
      (hc : readTldString s fuel (pos + 1) = some (c, e))
      (hrest : ChildChain s e cs r) : ChildChain s pos (c :: cs) r

/-! Concrete rule trees for the §8 scenario: `com` as a plain leaf, `uk`
with a wildcard child and a `parliament` child whose single child is the
exception marker (how `!parliament.uk` is encoded, cf. the break condition
`num_children == 1 && subnodes[0]->attr == THIS`), plus optionally a
top-level `*` fallback. -/

/-- A wildcard leaf `*`. -/
def starLeaf : tldnode := ⟨['*'], false, []⟩

/-- The leaf `com`. -/
def comLeaf : tldnode := ⟨"com".toList, false, []⟩

/-- A bare exception marker child (label run `!`, stored label empty,
exception flag set). -/
def bangLeaf : tldnode := ⟨[], true, []⟩

/-- The node `parliament` carrying the exception marker child. -/
def parliamentNode : tldnode := ⟨"parliament".toList, false, [bangLeaf]⟩

/-- The node `uk` with wildcard-suffixed children and the exception for
`parliament`. -/
def ukNode : tldnode := ⟨"uk".toList, false, [starLeaf, parliamentNode]⟩

/-- The §8 scenario tree with the generic top-level `*` fallback. -/
def treeStar : tldnode := ⟨[], false, [comLeaf, ukNode, starLeaf]⟩

/-- The §8 scenario tree without a top-level `*` (so an unknown TLD finds
no subtree at the root). -/
def treeNoStar : tldnode := ⟨[], false, [comLeaf, ukNode]⟩

/-- A rule tree whose root has no children at all. -/
def treeEmpty : tldnode := ⟨[], false, []⟩

/-- A parent whose wildcard child comes before its exact child (used to
check that the exact match wins regardless of order). -/
def wildFirstParent : tldnode := ⟨[], false, [starLeaf, comLeaf]⟩

/-! Helper lemmas about the embedding. -/

/-- A position holding a character other than the NUL terminator is inside
the hostname. -/
theorem cAt_lt_of_ne_nul (h : List Char) (p : Nat) (c : Char)
    (hc : cAt h p = c) (hnz : c ≠ Char.ofNat 0) : p < h.length := by
  by_contra hge
  have hnone : h.get? p = none := List.get?_eq_none.mpr (Nat.le_of_not_lt hge)
  rw [cAt, hnone] at hc
  exact hnz hc.symm

/-- Reading inside the hostname through `cAt` agrees with `getElem?`. -/
theorem cAt_getElem? (h : List Char) (p : Nat) (c : Char)
    (hc : cAt h p = c) (hnz : c ≠ Char.ofNat 0) : h[p]? = some c := by
  have hlt := cAt_lt_of_ne_nul h p c hc hnz
  have hsome : h.get? p = some (h.get ⟨p, hlt⟩) := List.get?_eq_get hlt
  rw [cAt, hsome] at hc
  simp only [Option.getD_some] at hc
  rw [← List.get?_eq_getElem?, hsome, hc]

/-- If the backward scan does not land on the head, the character right
before the resulting position is a dot (this is why the `abort()` guard of
the descent loop can never fire). -/
theorem scanBack_dot (h : List Char) :
    ∀ p : Nat, scanBack h p ≠ 0 → cAt h (scanBack h p - 1) = '.' := by
  intro p
  induction p with
  | zero =>
    intro hne
    rw [scanBack] at hne ⊢
    by_cases hdot : cAt h 0 = '.'
    · simp only [if_pos hdot]
      exact hdot
    · rw [if_neg hdot] at hne
      exact absurd rfl hne
  | succ p ih =>
    intro hne
    rw [scanBack] at hne ⊢
    by_cases hdot : cAt h (p + 1) = '.'
    · simp only [if_pos hdot]
      simpa using hdot
    · simp only [if_neg hdot] at hne ⊢
      exact ih hne

/-- The backward scan moves at most one position to the right. -/
theorem scanBack_le (h : List Char) : ∀ p : Nat, scanBack h p ≤ p + 1 := by
  intro p
  induction p with
  | zero =>
    rw [scanBack]
    split <;> omega
  | succ p ih =>
    rw [scanBack]
    split
    · omega
    · omega

/-- If the hostname does not begin with a dot, the backward scan never
yields position 1. -/
theorem scanBack_ne_one (h : List Char) (p : Nat) (h0 : cAt h 0 ≠ '.') :
    scanBack h p ≠ 1 := by
  intro heq
  have := scanBack_dot h p (by omega)
  rw [heq] at this
  exact h0 this

/-- Every `found` result of the two-label fix-up phase points inside the
hostname, at a suffix that still contains a dot — provided the final
`seg_start` is either the head or lies at least two characters in, right
after a dot. -/
theorem finishPhase_found (h : List Char) (d : Bool) (p k : Nat)
    (hp : p ≠ 0 → 2 ≤ p ∧ cAt h (p - 1) = '.')
    (hf : finishPhase h d p = .found k) :
    k < h.length ∧ '.' ∈ h.drop k := by
  rw [finishPhase] at hf
  by_cases hdot : '.' ∈ h.drop p
  · rw [if_pos hdot] at hf
    injection hf with hk
    subst hk
    constructor
    · by_contra hge
      have hnil : h.drop p = [] := List.drop_eq_nil_iff.mpr (by omega)
      rw [hnil] at hdot
      simp at hdot
    · exact hdot
  · rw [if_neg hdot] at hf
    by_cases hz : p = 0 ∨ d = true
    · rw [if_pos hz] at hf
      cases hf
    · rw [if_neg hz] at hf
      injection hf with hk
      subst hk
      have hpne : p ≠ 0 := fun hc => hz (Or.inl hc)
      obtain ⟨hp2, hpd⟩ := hp hpne
      have hplt : p - 1 < h.length :=
        cAt_lt_of_ne_nul h (p - 1) '.' hpd (by decide)
      have hsome : h[p - 1]? = some '.' := cAt_getElem? h (p - 1) '.' hpd (by decide)
      have hk : scanBack h (p - 2) ≤ p - 1 := by
        have := scanBack_le h (p - 2)
        omega
    -- the dot right before `p` lies inside the suffix starting at `scanBack h (p-2)`
      refine ⟨by omega, ?_⟩
      have hidx : (h.drop (scanBack h (p - 2)))[p - 1 - scanBack h (p - 2)]? = some '.' := by
        rw [List.getElem?_drop]
        have : scanBack h (p - 2) + (p - 1 - scanBack h (p - 2)) = p - 1 := by omega
        rw [this, hsome]
      have := List.getElem?_eq_some.mp hidx
      obtain ⟨hlt, hget⟩ := this
      rw [← hget]
      exact (h.drop (scanBack h (p - 2))).getElem_mem hlt

/-- Loop invariant: every `found` result of the descent loop points inside
the hostname at a suffix containing a dot, for hostnames that do not start
with a dot. -/
theorem rdLoop_found (h : List Char) (d : Bool) (h0 : cAt h 0 ≠ '.') :
    ∀ fuel : Nat, ∀ tree : tldnode, ∀ ss se k : Nat,
      rdLoop h d fuel tree ss se = .found k → k < h.length ∧ '.' ∈ h.drop k := by
  intro fuel
  induction fuel with
  | zero => intro tree ss se k hf; cases hf
  | succ fuel ih =>
    intro tree ss se k hf
    simp only [rdLoop] at hf
    have hp : scanBack h ss ≠ 0 → 2 ≤ scanBack h ss ∧ cAt h (scanBack h ss - 1) = '.' := by
      intro hne
      refine ⟨?_, scanBack_dot h ss hne⟩
      have := scanBack_ne_one h ss h0
      omega
    split at hf
    · exact finishPhase_found h d _ k hp hf
    · split at hf
      · exact finishPhase_found h d _ k hp hf
      · split at hf
        · cases hf
        · split at hf
          · exact ih _ _ _ k hf
          · cases hf

/-- Entry-point version of the loop invariant. -/
theorem getReg_found (h : List Char) (t : tldnode) (d : Bool) (k : Nat)
    (hf : getRegisteredDomainDropI h t d = .found k) :
    k < h.length ∧ '.' ∈ h.drop k := by
  rw [getRegisteredDomainDropI] at hf
  split at hf
  · cases hf
  · rename_i hrej
    exact rdLoop_found h d (fun hc => hrej (Or.inl hc)) _ _ _ _ k hf

/-- Dropping a proper prefix does not change the last element. -/
theorem drop_getLast? (h : List Char) (k : Nat) (hk : k < h.length) :
    (h.drop k).getLast? = h.getLast? := by
  rw [List.getLast?_eq_getElem?, List.getLast?_eq_getElem?, List.getElem?_drop,
    List.length_drop]
  congr 1
  omega

/-- The fix-up phase never aborts. -/
theorem finishPhase_ne_abort (h : List Char) (d : Bool) (p : Nat) :
    finishPhase h d p ≠ .abort := by
  rw [finishPhase]
  split
  · intro hc; cases hc
  · split
    · intro hc; cases hc
    · intro hc; cases hc

/-- The descent loop never aborts: whenever it wants to advance, the
backward scan has placed `seg_start` right after a dot. -/
theorem rdLoop_ne_abort (h : List Char) (d : Bool) :
    ∀ fuel : Nat, ∀ tree : tldnode, ∀ ss se : Nat,
      rdLoop h d fuel tree ss se ≠ .abort := by
  intro fuel
  induction fuel with
  | zero => intro tree ss se hc; cases hc
  | succ fuel ih =>
    intro tree ss se
    simp only [rdLoop]
    split
    · exact finishPhase_ne_abort h d _
    · split
      · exact finishPhase_ne_abort h d _
      · split
        · intro hc; cases hc
        · split
          · exact ih _ _ _
          · rename_i hs0 hdot
            exact fun _ => hdot (scanBack_dot h _ hs0)

/-! Lemmas about the decoder. -/

/-- The delimiter scan only ever stops at a delimiter, at or after its
starting position. -/
theorem findDelimGo_spec (h : List Char) :
    ∀ k pos q : Nat, findDelimGo h k pos = some q →
      pos ≤ q ∧ isDelim (cAt h q) = true := by
  intro k
  induction k with
  | zero => intro pos q hq; cases hq
  | succ k ih =>
    intro pos q hq
    rw [findDelimGo] at hq
    by_cases hd : isDelim (cAt h pos) = true
    · rw [if_pos hd] at hq
      injection hq with hq'
      subst hq'
      exact ⟨Nat.le_refl _, hd⟩
    · rw [if_neg hd] at hq
      have := ih (pos + 1) q hq
      exact ⟨by omega, this.2⟩

/-- A delimiter position is inside the input (the NUL terminator is not a
delimiter). -/
theorem isDelim_lt (h : List Char) (q : Nat)
    (hd : isDelim (cAt h q) = true) : q < h.length := by
  by_contra hge
  have hnone : h.get? q = none := List.get?_eq_none.mpr (Nat.le_of_not_lt hge)
  rw [cAt, hnone] at hd
  cases hd

/-- Properties of `findDelim`. -/
theorem findDelim_spec (h : List Char) (pos q : Nat)
    (hq : findDelim h pos = some q) :
    pos ≤ q ∧ isDelim (cAt h q) = true ∧ q < h.length := by
  have := findDelimGo_spec h (h.length - pos) pos q hq
  exact ⟨this.1, this.2, isDelim_lt h q this.2⟩

/-- A label run starting with the exception marker sets the flag. -/
theorem hasBang_head (s : List Char) (start q : Nat)
    (hstart : cAt s start = '!') (hlt : start < q) :
    hasBang s start q = true := by
  rw [hasBang, List.any_eq_true]
  refine ⟨'!', ?_, by decide⟩
  have hsome : s[start]? = some '!' := cAt_getElem? s start '!' hstart (by decide)
  have hidx : (sliceL s start (q - start))[0]? = some '!' := by
    rw [sliceL, List.getElem?_take_of_lt (by omega), List.getElem?_drop]
    simpa using hsome
  obtain ⟨hlt', hget⟩ := List.getElem?_eq_some.mp hidx
  rw [← hget]
  exact (sliceL s start (q - start)).getElem_mem hlt'

/-- Removing the final character of a label run, expressed on slices. -/
theorem slice_dropLast (s : List Char) (start q : Nat)
    (hle : start ≤ q) (hq : q ≤ s.length) :
    sliceL s start (q - start - 1) = (sliceL s start (q - start)).dropLast := by
  rw [sliceL, sliceL, List.dropLast_eq_take,
    List.length_take_of_le (by rw [List.length_drop]; omega), List.take_take]
  congr 1
  omega

/-- Evaluation of the decoder on a node without a child block: the label
run ends at a `','` or `')'`. -/
theorem readTldString_run (s : List Char) (fuel start q : Nat)
    (hq : findDelim s start = some q) (hpar : ¬cAt s q = '(') :
    readTldString s (fuel + 1) start =
      some (⟨sliceL s start
        (if hasBang s start q = true then q - start - 1 else q - start),
        hasBang s start q, []⟩, q) := by
  simp only [readTldString, hq]
  rw [if_neg hpar]

/-- Evaluation of the decoder on a node with a child block. -/
theorem readTldString_paren (s : List Char) (fuel start q r : Nat)
    (cs : List tldnode) (e : Nat)
    (hq : findDelim s start = some q) (hpar : cAt s q = '(')
    (hcol : findColon s (q + 1) = some r)
    (hch : readTldChildren s fuel (atoiNat (sliceL s (q + 1) (r - q - 1))) r =
      some (cs, e)) :
    readTldString s (fuel + 1) start =
      some (⟨sliceL s start
        (if hasBang s start q = true then q - start - 1 else q - start),
        hasBang s start q, cs⟩, e + 1) := by
  simp only [readTldString, hq]
  rw [if_pos hpar]
  simp only [hcol, hch]

/-- The child loop decodes exactly the announced number of children. -/
theorem readTldChildren_length (s : List Char) :
    ∀ fuel n pos : Nat, ∀ cs : List tldnode, ∀ e : Nat,
      readTldChildren s fuel n pos = some (cs, e) → cs.length = n := by
  intro fuel
  induction fuel with
  | zero =>
    intro n pos cs e hch
    cases n with
    | zero =>
      rw [readTldChildren] at hch
      injection hch with hch'
      cases hch'
      rfl
    | succ n => cases hch
  | succ fuel ih =>
    intro n pos cs e hch
    cases n with
    | zero =>
      rw [readTldChildren] at hch
      injection hch with hch'
      cases hch'
      rfl
    | succ n =>
      rw [readTldChildren] at hch
      cases hrn : readTldString s fuel (pos + 1) with
      | none =>
        simp only [hrn] at hch
        exact Option.noConfusion hch
      | some cp =>
        obtain ⟨c, p⟩ := cp
        simp only [hrn] at hch
        cases hrc : readTldChildren s fuel n p with
        | none =>
          simp only [hrc] at hch
          exact Option.noConfusion hch
        | some cse =>
          obtain ⟨cs', e'⟩ := cse
          simp only [hrc] at hch
          injection hch with hp
          obtain ⟨h1, h2⟩ := Prod.mk.inj hp
          subst h1
          subst h2
          rw [List.length_cons, ih n p cs' e' hrc]

/-- The child loop decodes each child one position past the preceding
delimiter, threading the returned positions. -/
theorem readTldChildren_chain (s : List Char) :
    ∀ fuel n pos : Nat, ∀ cs : List tldnode, ∀ e : Nat,
      readTldChildren s fuel n pos = some (cs, e) → ChildChain s pos cs e := by
  intro fuel
  induction fuel with
  | zero =>
    intro n pos cs e hch
    cases n with
    | zero =>
      rw [readTldChildren] at hch
      injection hch with hch'
      cases hch'
      exact ChildChain.nil pos
    | succ n => cases hch
  | succ fuel ih =>
    intro n pos cs e hch
    cases n with
    | zero =>
      rw [readTldChildren] at hch
      injection hch with hch'
      cases hch'
      exact ChildChain.nil pos
    | succ n =>
      rw [readTldChildren] at hch
      cases hrn : readTldString s fuel (pos + 1) with
      | none =>
        simp only [hrn] at hch
        exact Option.noConfusion hch
      | some cp =>
        obtain ⟨c, p⟩ := cp
        simp only [hrn] at hch
        cases hrc : readTldChildren s fuel n p with
        | none =>
          simp only [hrc] at hch
          exact Option.noConfusion hch
        | some cse =>
          obtain ⟨cs', e'⟩ := cse
          simp only [hrc] at hch
          injection hch with hp
          obtain ⟨h1, h2⟩ := Prod.mk.inj hp
          subst h1
          subst h2
          exact ChildChain.cons pos p e' c cs' fuel hrn (ih n p cs' e' hrc)

/-! Claim theorems. -/

/-- C1 (evaluation at the failing input): appending a single trailing dot
does change the resolver's result.  On the §8 scenario tree,
`resolve("foo.com")` is `"foo.com"` but `resolve("foo.com.")` is `"com."`:
after the trailing dot is trimmed from `seg_end`, the initial `seg_start`
sits on the dot itself, the backward scan stops there immediately and the
increment produces the inverted window `[seg_end+1, seg_end)`, so the last
label is never matched — contradicting the code's own invariant comment
`[seg_start, seg_end) is one label`. -/
theorem c1_trailing_dot_divergence :
    regDomainStr "foo.com.".toList treeStar false = some ("com.".toList) ∧
      regDomainStr "foo.com".toList treeStar false = some ("foo.com".toList) ∧
      regDomainStr "foo.com.".toList treeStar false ≠
        regDomainStr "foo.com".toList treeStar false :=
  ⟨by decide, by decide, by decide⟩

/-- C2 (counterexample): the resolver can return a single-label result
whose only dot is trailing.  For `"foo."` on a tree with no rules the
result is the non-`noMatch` value `"foo."` — one label, no embedded
separator (its `dropLast` contains no dot) — and the input was not
rejected, so the claim's exception clause does not apply.  This is a
consequence of the trailing-dot handling recorded at C1: the two-label
check `strchr(seg_start, '.')` and the extend-one-label scan both count
the trailing dot of the untrimmed hostname as a separator. -/
theorem c2_counterexample :
    regDomainStr "foo.".toList treeEmpty false = some ("foo.".toList) ∧
      '.' ∉ ("foo.".toList).dropLast :=
  ⟨by decide, by decide⟩

/-- C2 (amended): every non-`noMatch` result of the resolver contains at
least one dot; when the hostname does not end with a trailing dot, that
dot is an embedded separator — it is not the final character of the
result — so the result consists of two or more labels.  (For hostnames
ending in a trailing dot the only dot of the result may be that trailing
dot itself, as the counterexample shows.) -/
theorem c2_amended_embedded_dot (h : List Char) (t : tldnode) (d : Bool) (r : List Char)
    (hr : regDomainStr h t d = some r) :
    '.' ∈ r ∧ (h.getLast? ≠ some '.' → '.' ∈ r.dropLast) := by
  rw [regDomainStr] at hr
  split at hr
  · rename_i k hk
    injection hr with hr'
    subst hr'
    obtain ⟨hklt, hdot⟩ := getReg_found h t d k hk
    refine ⟨hdot, ?_⟩
    intro hnd
    obtain ⟨j, hj, hget⟩ := List.getElem_of_mem hdot
    have hjget : (h.drop k)[j]? = some '.' := by
      rw [List.getElem?_eq_getElem hj, hget]
    by_cases hlast : j = (h.drop k).length - 1
    · exfalso
      apply hnd
      rw [← drop_getLast? h k hklt, List.getLast?_eq_getElem?, ← hlast]
      exact hjget
    · have hjlt : j < (h.drop k).length - 1 := by omega
      have hidx : (h.drop k).dropLast[j]? = some '.' := by
        rw [List.dropLast_eq_take, List.getElem?_take_of_lt hjlt]
        exact hjget
      obtain ⟨hlt', hget'⟩ := List.getElem?_eq_some.mp hidx
      rw [← hget']
      exact ((h.drop k).dropLast).getElem_mem hlt'
  · cases hr

/-- Witness for the amended C2 at a concrete input without a trailing
dot: the result `example.com` has an embedded dot. -/
theorem c2_amended_embedded_dot_witness :
    regDomainStr "www.example.com".toList treeStar false =
      some ("example.com".toList) ∧
      ('.' ∈ "example.com".toList ∧
        (("www.example.com".toList).getLast? ≠ some '.' →
          '.' ∈ ("example.com".toList).dropLast)) :=
  ⟨by decide,
    c2_amended_embedded_dot "www.example.com".toList treeStar false
      "example.com".toList (by decide)⟩

/-- C3 (counterexample): on the tree the claim itself describes — with a
generic top-level `*` fallback — the pseudo-TLD `xx` is *not* unknown: it
matches the wildcard, the descent consumes `something`, and the result is
`something.xx` even with `dropUnknown = true`, not `noMatch`. -/
theorem c3_counterexample :
    getRegisteredDomainDropI "something.xx".toList treeStar true = .found 0 ∧
      getRegisteredDomainDropI "something.xx".toList treeStar true ≠ .noMatch :=
  ⟨by decide, by decide⟩

/-- C3 (amended): on the §8 tree whose root has no `*` child, so that `xx`
really finds no subtree at the root, `resolve("something.xx")` is `noMatch`
with `dropUnknown = true` and `something.xx` with `dropUnknown = false`. -/
theorem c3_amended_no_star :
    getRegisteredDomainDropI "something.xx".toList treeNoStar true = .noMatch ∧
      regDomainStr "something.xx".toList treeNoStar false =
        some ("something.xx".toList) :=
  ⟨by decide, by decide⟩

/-- C8: for every tree and drop flag, a hostname that is empty or starts
with `'.'` is rejected with the normal return value `noMatch`. -/
theorem c8_empty_or_leading_dot (h : List Char) (t : tldnode) (d : Bool)
    (hh : h = [] ∨ h.get? 0 = some '.') :
    getRegisteredDomainDropI h t d = .noMatch := by
  rw [getRegisteredDomainDropI]
  have hcond : cAt h 0 = '.' ∨ cAt h 0 = Char.ofNat 0 := by
    rcases hh with he | hd
    · subst he
      right
      rfl
    · left
      rw [cAt, hd]
      rfl
  rw [if_pos hcond]

/-- Witness for C8 at a concrete input. -/
theorem c8_empty_or_leading_dot_witness :
    (".net".toList = [] ∨ (".net".toList).get? 0 = some '.') ∧
      getRegisteredDomainDropI ".net".toList treeStar true = .noMatch :=
  ⟨Or.inr rfl, c8_empty_or_leading_dot ".net".toList treeStar true (Or.inr rfl)⟩

/-- C9: every non-`noMatch` result of the resolver is a suffix of the
original hostname extending to its true end; in particular, if the
hostname ends with a dot, so does the result. -/
theorem c9_suffix_to_end (h : List Char) (t : tldnode) (d : Bool) (k : Nat)
    (hf : getRegisteredDomainDropI h t d = .found k) :
    k < h.length ∧ List.IsSuffix (h.drop k) h ∧
      (h.getLast? = some '.' → (h.drop k).getLast? = some '.') := by
  have hmain := getReg_found h t d k hf
  refine ⟨hmain.1, ⟨h.take k, List.take_append_drop k h⟩, ?_⟩
  intro hlast
  rw [drop_getLast? h k hmain.1, hlast]

/-- Witness for C9 at a concrete input with a trailing dot. -/
theorem c9_suffix_to_end_witness :
    2 < ("b.c.".toList).length ∧
      List.IsSuffix (("b.c.".toList).drop 2) ("b.c.".toList) ∧
      (("b.c.".toList).getLast? = some '.' →
        (("b.c.".toList).drop 2).getLast? = some '.') :=
  c9_suffix_to_end "b.c.".toList treeEmpty false 2 (by decide)

/-- C10: the resolver never reaches its `abort()` branch: whenever the
descent loop advances, the backward scan has placed `seg_start` right
after a dot, so the guard `seg_start[-1] != '.'` is false. -/
theorem c10_no_abort (h : List Char) (t : tldnode) (d : Bool) :
    getRegisteredDomainDropI h t d ≠ .abort := by
  rw [getRegisteredDomainDropI]
  split
  · intro hc
    cases hc
  · exact rdLoop_ne_abort h d _ t _ _

/-- Witness for C10 at a concrete input. -/
theorem c10_no_abort_witness :
    getRegisteredDomainDropI "x.y".toList treeStar false ≠ .abort :=
  c10_no_abort "x.y".toList treeStar false

/-- If the child search finds an exact match anywhere in the list, or the
accumulated wildcard is itself an exact match, the search result is an
exact match. -/
theorem findTldGo_exact (h : List Char) (ss se : Nat) :
    ∀ (l : List tldnode) (acc : Option tldnode),
      ((∃ c ∈ l, exactMatch h ss se c) ∨
        (∃ a, acc = some a ∧ exactMatch h ss se a)) →
      ∃ c', findTldGo h ss se l acc = some c' ∧ exactMatch h ss se c' := by
  intro l
  induction l with
  | nil =>
    intro acc hyp
    rcases hyp with ⟨c, hc, _⟩ | ⟨a, ha, hexa⟩
    · cases hc
    · refine ⟨a, ?_, hexa⟩
      rw [findTldGo]
      exact ha
  | cons c rest ih =>
    intro acc hyp
    rw [findTldGo]
    by_cases hwild : acc.isNone = true ∧ c.dom = ['*']
    · rw [if_pos hwild]
      apply ih (some c)
      rcases hyp with ⟨x, hx, hx2⟩ | ⟨a, ha, _⟩
      · cases hx with
        | head => exact Or.inr ⟨c, rfl, hx2⟩
        | tail _ htail => exact Or.inl ⟨x, htail, hx2⟩
      · rw [ha] at hwild
        simp at hwild
    · rw [if_neg hwild]
      by_cases hexc : exactMatch h ss se c
      · rw [if_pos hexc]
        exact ⟨c, rfl, hexc⟩
      · rw [if_neg hexc]
        apply ih acc
        rcases hyp with ⟨x, hx, hx2⟩ | hacc
        · cases hx with
          | head => exact absurd hx2 hexc
          | tail _ htail => exact Or.inl ⟨x, htail, hx2⟩
        · exact Or.inr hacc

/-- C5: if some child of the parent matches the query label `[ss, se)`
byte-for-byte, the child search returns an exact-matching child, never a
wildcard (unless the query label is itself `*`), regardless of the order
of the children. -/
theorem c5_exact_beats_wildcard (parent : tldnode) (h : List Char) (ss se : Nat)
    (hex : ∃ c ∈ parent.subnodes, exactMatch h ss se c) :
    ∃ c', findTldNode parent h ss se = some c' ∧ exactMatch h ss se c' ∧
      (c'.dom = ['*'] → sliceL h ss (segLen ss se) = ['*']) := by
  obtain ⟨c', hfind, hexact⟩ :=
    findTldGo_exact h ss se parent.subnodes none (Or.inl hex)
  refine ⟨c', hfind, hexact, ?_⟩
  intro hstar
  obtain ⟨hlen, hslice⟩ := hexact
  rw [hstar] at hlen hslice
  rw [hlen]
  exact hslice

/-- Witness for C5: the wildcard child comes first, yet the query `com`
returns the exact child. -/
theorem c5_exact_beats_wildcard_witness :
    ∃ c', findTldNode wildFirstParent "com".toList 0 3 = some c' ∧
      exactMatch "com".toList 0 3 c' ∧
      (c'.dom = ['*'] → sliceL "com".toList 0 (segLen 0 3) = ['*']) :=
  c5_exact_beats_wildcard wildFirstParent "com".toList 0 3
    ⟨comLeaf, List.Mem.tail _ (List.Mem.head _), by decide⟩

/-- C4: whenever the descent finds a subtree for the current label whose
only child is an exception node, the loop stops there and the current
label's start (the result of the backward scan) becomes the left edge of
the candidate registered domain, subject only to the two-label fix-up
phase; in particular `resolve("parliament.uk")` on the §8 scenario tree is
`parliament.uk`, not `uk`. -/
theorem c4_exception_stops_descent (h : List Char) (d : Bool) (fuel : Nat)
    (tree subtree : tldnode) (ss se : Nat)
    (hfind : findTldNode tree h (scanBack h ss) se = some subtree)
    (hterm : exceptionTerminal subtree = true) :
    rdLoop h d (fuel + 1) tree ss se = finishPhase h d (scanBack h ss) ∧
      regDomainStr "parliament.uk".toList treeStar false =
        some ("parliament.uk".toList) ∧
      regDomainStr "parliament.uk".toList treeStar false ≠ some ("uk".toList) := by
  refine ⟨?_, by decide, by decide⟩
  simp only [rdLoop, hfind, hterm, if_true]

/-- C6 (counterexample): decoding the run `!ab` (exception marker followed
by further label characters, closed by `','`) stores `!a`, not `ab`: the
copy starts at the marker and only the length is shortened, so the marker
is retained and the final label character is dropped instead. -/
theorem c6_counterexample :
    readTldString "!ab,".toList 1 0 = some (⟨"!a".toList, true, []⟩, 3) ∧
      "!a".toList ≠ "ab".toList :=
  ⟨rfl, by decide⟩

/-- C6 (amended): for every label run that begins with `'!'` followed by
further label characters and ends at a delimiter, the decoder sets the
exception flag and stores the run with its final character removed (the
leading `'!'` is retained); for a `','` or `')'` delimiter the node is
returned at the delimiter with no children. -/
theorem c6_amended_marker_kept (s : List Char) (fuel start q : Nat)
    (hstart : cAt s start = '!')
    (hq : findDelim s start = some q)
    (hrun : start + 1 < q) :
    (∀ node : tldnode, ∀ p' : Nat,
      readTldString s (fuel + 1) start = some (node, p') →
        node.attr = true ∧ node.dom = (sliceL s start (q - start)).dropLast) ∧
      ((cAt s q = ',' ∨ cAt s q = ')') →
        readTldString s (fuel + 1) start =
          some (⟨(sliceL s start (q - start)).dropLast, true, []⟩, q)) := by
  obtain ⟨hge, hdel, hqlt⟩ := findDelim_spec s start q hq
  have hbang : hasBang s start q = true := hasBang_head s start q hstart (by omega)
  have hdom : sliceL s start (q - start - 1) = (sliceL s start (q - start)).dropLast :=
    slice_dropLast s start q hge (by omega)
  constructor
  · intro node p' heq
    by_cases hpar : cAt s q = '('
    · simp only [readTldString, hq, if_pos hpar] at heq
      cases hcol : findColon s (q + 1) with
      | none =>
        rw [hcol] at heq
        exact Option.noConfusion heq
      | some r =>
        simp only [hcol] at heq
        cases hch : readTldChildren s fuel
            (atoiNat (sliceL s (q + 1) (r - q - 1))) r with
        | none =>
          rw [hch] at heq
          exact Option.noConfusion heq
        | some cse =>
          obtain ⟨cs, e⟩ := cse
          simp only [hch] at heq
          injection heq with hp
          obtain ⟨h1, h2⟩ := Prod.mk.inj hp
          subst h1
          simp only [hbang, if_true]
          exact ⟨trivial, hdom⟩
    · rw [readTldString_run s fuel start q hq hpar] at heq
      injection heq with hp
      obtain ⟨h1, h2⟩ := Prod.mk.inj hp
      subst h1
      simp only [hbang, if_true]
      exact ⟨trivial, hdom⟩
  · intro hclose
    have hpar : ¬cAt s q = '(' := by
      rcases hclose with hc | hc <;> rw [hc] <;> decide
    rw [readTldString_run s fuel start q hq hpar, hbang, if_pos rfl, hdom]

/-- Witness for the amended C6 at a concrete run. -/
theorem c6_amended_marker_kept_witness :
    (∀ node : tldnode, ∀ p' : Nat,
      readTldString "!xy)".toList 1 0 = some (node, p') →
        node.attr = true ∧
          node.dom = (sliceL "!xy)".toList 0 (3 - 0)).dropLast) ∧
      ((cAt "!xy)".toList 3 = ',' ∨ cAt "!xy)".toList 3 = ')') →
        readTldString "!xy)".toList 1 0 =
          some (⟨(sliceL "!xy)".toList 0 (3 - 0)).dropLast, true, []⟩, 3)) :=
  c6_amended_marker_kept "!xy)".toList 0 0 3 rfl rfl (by decide)

/-- C7: for a node whose label is followed by a child block `(N:...)`, the
decoder returns the node with exactly `N` children, each child decoded one
position past the preceding delimiter (the `':'` for the first child, the
position returned by the previous child for later ones), and the returned
position is one past the block's closing `')'`. -/
theorem c7_child_block (s : List Char) (fuel start q r : Nat)
    (cs : List tldnode) (e : Nat)
    (hq : findDelim s start = some q)
    (hpar : cAt s q = '(')
    (hcol : findColon s (q + 1) = some r)
    (_hdig : (sliceL s (q + 1) (r - q - 1)).all (fun c => c.isDigit) = true)
    (hch : readTldChildren s fuel (atoiNat (sliceL s (q + 1) (r - q - 1))) r =
      some (cs, e))
    (_hclose : cAt s e = ')') :
    readTldString s (fuel + 1) start =
      some (⟨sliceL s start
          (if hasBang s start q = true then q - start - 1 else q - start),
        hasBang s start q, cs⟩, e + 1) ∧
      cs.length = atoiNat (sliceL s (q + 1) (r - q - 1)) ∧
      ChildChain s r cs e :=
  ⟨readTldString_paren s fuel start q r cs e hq hpar hcol hch,
    readTldChildren_length s fuel _ r cs e hch,
    readTldChildren_chain s fuel _ r cs e hch⟩

/-- Witness for C7 on the encoding `ab(2:c,d)`. -/
theorem c7_child_block_witness :
    readTldString "ab(2:c,d)".toList 4 0 =
      some (⟨sliceL "ab(2:c,d)".toList 0
          (if hasBang "ab(2:c,d)".toList 0 2 = true then 2 - 0 - 1 else 2 - 0),
        hasBang "ab(2:c,d)".toList 0 2,
        [⟨"c".toList, false, []⟩, ⟨"d".toList, false, []⟩]⟩, 9) ∧
      [(⟨"c".toList, false, []⟩ : tldnode), ⟨"d".toList, false, []⟩].length =
        atoiNat (sliceL "ab(2:c,d)".toList 3 (4 - 2 - 1)) ∧
      ChildChain "ab(2:c,d)".toList 4
        [⟨"c".toList, false, []⟩, ⟨"d".toList, false, []⟩] 8 :=
  c7_child_block "ab(2:c,d)".toList 3 0 2 4
    [⟨"c".toList, false, []⟩, ⟨"d".toList, false, []⟩] 8
    rfl rfl rfl rfl rfl rfl

/-- Witness for C4: the state of the second loop iteration on
`parliament.uk`, where the cursor is at `uk` and the label is
`parliament`. -/
theorem c4_exception_stops_descent_witness :
    rdLoop "parliament.uk".toList false 1 ukNode 9 10 =
      finishPhase "parliament.uk".toList false
        (scanBack "parliament.uk".toList 9) ∧
      regDomainStr "parliament.uk".toList treeStar false =
        some ("parliament.uk".toList) ∧
      regDomainStr "parliament.uk".toList treeStar false ≠ some ("uk".toList) :=
  c4_exception_stops_descent "parliament.uk".toList false 0 ukNode
    parliamentNode 9 10 rfl rfl

